import Mathlib

/-!
Verification of the guardrails static-analysis engine.

The Rust sources are embedded shallowly:
- Rust `str` / `String` values are modelled as their UTF-8 byte sequences
  (`List Nat`), so that match positions and columns are byte offsets exactly
  as in the source; `strBytes` encodes a Lean string literal to bytes.
- External collaborators (the `regex` crate's `find_iter`, `globset` matching,
  the git subprocess, the filesystem) are modelled as explicit function
  parameters or explicit data, so every embedded function is executable.
- Fallible Rust functions returning `Result`/`Option` become `Except`/`Option`.
-/

/-- UTF-8 encoding of one character (standard four-case encoder); used to turn
Lean string literals into the byte sequences the Rust code operates on. -/
def utf8Bytes (c : Char) : List Nat :=
  let n := c.toNat
  if n < 0x80 then [n]
  else if n < 0x800 then [0xC0 + n / 64, 0x80 + n % 64]
  else if n < 0x10000 then [0xE0 + n / 4096, 0x80 + (n / 64) % 64, 0x80 + n % 64]
  else [0xF0 + n / 262144, 0x80 + (n / 4096) % 64, 0x80 + (n / 64) % 64, 0x80 + n % 64]

/-- The UTF-8 bytes of a string, the representation of Rust `str` used throughout. -/
def strBytes (s : String) : List Nat :=
  (s.toList.map utf8Bytes).flatten

/-- Embedding of Rust `str::find(&str)` restricted to byte sequences: the byte
offset of the first occurrence of `p` as a contiguous subsequence of `s`
(for valid UTF-8 inputs this coincides with Rust substring search, because
UTF-8 is self-synchronizing). An empty pattern is found at offset 0, as in Rust. -/
def findSub (p : List Nat) : List Nat → Option Nat
  | [] => if p.isEmpty then some 0 else none
  | a :: t => if p.isPrefixOf (a :: t) then some 0 else (findSub p t).map (· + 1)

/-- Embedding of Rust `str::find(char)` / `find(closure)`: byte offset of the
first byte satisfying `p` (all searched-for characters in the sources are ASCII,
so the byte offset is the offset of the matching byte itself). -/
def findPos (p : Nat → Bool) : List Nat → Option Nat
  | [] => none
  | c :: t => if p c then some 0 else (findPos p t).map (· + 1)

/-- Split a byte sequence after every newline byte 0x0A, keeping the newline
in the segment; the embedding of the segmentation underlying Rust `str::lines`. -/
def splitInclNL : List Nat → List (List Nat)
  | [] => []
  | c :: t =>
    if c = 10 then [c] :: splitInclNL t
    else
      match splitInclNL t with
      | [] => [[c]]
      | seg :: segs => (c :: seg) :: segs

/-- Remove one trailing `\n`, and a `\r` just before it, from a segment: the
per-line trimming Rust `str::lines` applies (a bare trailing `\r` with no
newline is kept, as in Rust). -/
def chompNL (seg : List Nat) : List Nat :=
  match seg.reverse with
  | 10 :: 13 :: r => r.reverse
  | 10 :: r => r.reverse
  | _ => seg

/-- Embedding of Rust `str::lines` on UTF-8 bytes. -/
def rustLines (s : List Nat) : List (List Nat) :=
  (splitInclNL s).map chompNL

/-- Drop one leading `+` sign byte, as the integer parser underlying
`str::parse::<usize>()` does. -/
def stripPlus : List Nat → List Nat
  | [] => []
  | c :: rest => if c = 43 then rest else c :: rest

/-- Embedding of `str::parse::<usize>()` (optional leading `+` sign, one or
more ASCII digits, failure on anything else or on overflow of 64-bit `usize`). -/
def parseUsize (s : List Nat) : Option Nat :=
  let t := stripPlus s
  if t.isEmpty then none
  else if t.all (fun c => decide (48 ≤ c ∧ c ≤ 57)) then
    let v := t.foldl (fun acc c => acc * 10 + (c - 48)) 0
    if v < 2 ^ 64 then some v else none
  else none

/-- Fuel-bounded digit rendering; `fuel` bounds the number of digits, so the
recursion is structural (any `fuel` with `n < 10 ^ fuel` is enough). -/
def natCharsAux : Nat → Nat → List Nat
  | 0, _ => []
  | fuel + 1, n => if n < 10 then [48 + n] else natCharsAux fuel (n / 10) ++ [48 + n % 10]

/-- Decimal ASCII rendering of a natural number, as Rust `Display` renders a
`usize`; used to state claims about hunk headers built from numbers. -/
def natChars (n : Nat) : List Nat := natCharsAux (n + 1) n

section AssocList

variable {K V R : Type} [DecidableEq K]

/-- Lookup in an association list, the model of `HashMap::get` /
`contains_key` (keys are inserted at most once, so first match suffices). -/
def alGet : List (K × V) → K → Option V
  | [], _ => none
  | (k', v) :: rest, k => if k' = k then some v else alGet rest k

/-- Model of `HashMap::entry(k).or_insert_with(Vec::new)`: ensure the key is
present, seeding it with an empty list when absent. -/
def alSeed : List (K × List R) → K → List (K × List R)
  | [], k => [(k, [])]
  | (k', v) :: rest, k => if k' = k then (k', v) :: rest else (k', v) :: alSeed rest k

/-- Model of `HashMap::entry(k).or_default().push(r)`: append `r` to the
key's list, inserting the key when absent. -/
def alPush : List (K × List R) → K → R → List (K × List R)
  | [], k, r => [(k, [r])]
  | (k', v) :: rest, k, r =>
    if k' = k then (k', v ++ [r]) :: rest else (k', v) :: alPush rest k r

end AssocList

/-! ## Data model (src/config.rs, src/rules/mod.rs) -/

/-- Severity level for a rule violation (src/config.rs). -/
inductive Severity where
  | Error
  | Warning
deriving DecidableEq, Repr

/-- Parsed rule configuration (struct `RuleConfig`, src/config.rs). Text
fields that are only carried through are kept as Lean strings; the `pattern`
field is kept as bytes because the matcher recurses on it. -/
structure RuleConfig where
  id : String
  severity : Severity
  message : String
  suggest : Option String
  glob : Option String
  allowed_classes : List String
  token_map : List String
  pattern : Option (List Nat)
  max_count : Option Nat
  packages : List String
  regex : Bool
  manifest : Option String

/-- One reported violation (struct `Violation`, declared in src/rules/mod.rs;
its field set is fixed by the construction sites in src/rules/ratchet.rs and
the readers in src/cli/format.rs). The `Fix` payload type is never populated
by any code under scrutiny (always `None`), so it is modelled as `Unit`. -/
structure Violation where
  rule_id : String
  severity : Severity
  file : String
  line : Option Nat
  column : Option Nat
  message : String
  suggest : Option String
  source_line : Option (List Nat)
  fix : Option Unit
deriving DecidableEq, Repr

/-- Rule construction errors (enum `RuleBuildError`, declared in
src/rules/mod.rs; variant shapes fixed by the uses in src/rules/ratchet.rs:
`MissingField(id, field)` and `InvalidRegex(id, cause)`, the cause rendered
as text). -/
inductive RuleBuildError where
  | MissingField (id : String) (field : String)
  | InvalidRegex (id : String) (cause : String)
deriving DecidableEq, Repr

/-- Abstraction of a compiled regex: `find_iter` as a function from a line to
the list of its non-overlapping matches, each a (start, end) byte-offset pair,
exactly the data `regex::Regex::find_iter` yields. -/
def Matcher : Type := List Nat → List (Nat × Nat)

/-! ## RatchetRule (src/rules/ratchet.rs) -/

/-- Struct `RatchetRule` (src/rules/ratchet.rs, lines 10-20). -/
structure RatchetRule where
  id : String
  severity : Severity
  message : String
  suggest : Option String
  glob : Option String
  pattern : List Nat
  max_count : Nat
  compiled_regex : Option Matcher

/-- Embedding of `RatchetRule::new` (src/rules/ratchet.rs, lines 23-53).
`compile` stands for `regex::Regex::new`, the external regex compiler, with
its error rendered as text. -/
def RatchetRule.new (compile : List Nat → Except String Matcher)
    (config : RuleConfig) : Except RuleBuildError RatchetRule :=
  match config.pattern.filter (fun p => !p.isEmpty) with
  | none => .error (.MissingField config.id "pattern")
  | some pattern =>
    match config.max_count with
    | none => .error (.MissingField config.id "max_count")
    | some max_count =>
      match (if config.regex then
               ((compile pattern).mapError
                 (fun e => RuleBuildError.InvalidRegex config.id e)).map some
             else .ok none) with
      | .error e => .error e
      | .ok compiled_regex =>
        .ok { id := config.id, severity := config.severity,
              message := config.message, suggest := config.suggest,
              glob := config.glob, pattern := pattern,
              max_count := max_count, compiled_regex := compiled_regex }

/-- The literal-mode scanning loop of `check_file` (src/rules/ratchet.rs,
lines 100-115): repeatedly `find` the pattern in `line[searchStart..]`,
record the absolute start offset, and resume just past the match's last byte.
The `fuel` argument bounds the iteration count (for the nonempty patterns
construction enforces, `line.length + 1` steps always suffice, proved below;
on an empty pattern the Rust loop would not terminate). -/
def literalLoop (p line : List Nat) : Nat → Nat → List Nat
  | 0, _ => []
  | fuel + 1, searchStart =>
    match findSub p (line.drop searchStart) with
    | none => []
    | some pos => (searchStart + pos) :: literalLoop p line fuel (searchStart + pos + p.length)

/-- All literal-mode match start offsets in one line, left to right. -/
def literalMatches (p line : List Nat) : List Nat :=
  literalLoop p line (line.length + 1) 0

/-- The per-line body of `check_file` (src/rules/ratchet.rs, lines 80-117):
regex mode maps each `find_iter` match to a violation with column
`m.start() + 1`, literal mode maps each literal match offset to a violation
with column `col + 1`; `lineIdx` is the 0-based index of `line`. -/
def perLine (rule : RatchetRule) (filePath : String) (lineIdx : Nat)
    (line : List Nat) : List Violation :=
  match rule.compiled_regex with
  | some re =>
    (re line).map fun m =>
      { rule_id := rule.id, severity := rule.severity, file := filePath,
        line := some (lineIdx + 1), column := some (m.1 + 1),
        message := rule.message, suggest := rule.suggest,
        source_line := some line, fix := none }
  | none =>
    (literalMatches rule.pattern line).map fun col =>
      { rule_id := rule.id, severity := rule.severity, file := filePath,
        line := some (lineIdx + 1), column := some (col + 1),
        message := rule.message, suggest := rule.suggest,
        source_line := some line, fix := none }

/-- The `for (line_idx, line) in ctx.content.lines().enumerate()` loop of
`check_file`, with the 0-based running index made explicit. -/
def checkLines (rule : RatchetRule) (filePath : String) :
    List (List Nat) → Nat → List Violation
  | [], _ => []
  | line :: rest, idx => perLine rule filePath idx line ++ checkLines rule filePath rest (idx + 1)

/-- Embedding of `RatchetRule::check_file` (src/rules/ratchet.rs, lines 77-120). -/
def RatchetRule.check_file (rule : RatchetRule) (filePath : String)
    (content : List Nat) : List Violation :=
  checkLines rule filePath (rustLines content) 0

/-- Helper for `countOcc`: walk the line byte by byte; `skip` is the number of
bytes still covered by the previous match (inside which no new match may
start, making the count non-overlapping). -/
def countOccAux (p : List Nat) : Nat → List Nat → Nat
  | _, [] => 0
  | sk + 1, _ :: t => countOccAux p sk t
  | 0, b :: t =>
    if p.isPrefixOf (b :: t) then countOccAux p (p.length - 1) t + 1
    else countOccAux p 0 t

/-- Reference count of non-overlapping left-to-right occurrences of `p` in a
line, stated the way the spec words it: scan left to right and, after each
match, resume just past its last byte. Written as a structural byte-by-byte
recursion, independent of the `find`-based loop in the source. -/
def countOcc (p s : List Nat) : Nat := countOccAux p 0 s

/-! ## Rule factory (src/rules/factory.rs) -/

/-- Enum `FactoryError` (src/rules/factory.rs, lines 7-11). -/
inductive FactoryError where
  | UnknownRuleType (t : String)
  | BuildError (e : RuleBuildError)
deriving DecidableEq, Repr

/-- The vtable view of a built `Box<dyn Rule>`: the data and behaviour the
scan layer uses from a rule (trait `Rule`, declared in src/rules/mod.rs;
the member set is fixed by the uses in src/scan.rs). -/
structure RuleObj where
  id : String
  severity : Severity
  file_glob : Option String
  check_file : String → List Nat → List Violation

/-- Embedding of `build_rule` (src/rules/factory.rs, lines 31-37). The two
tailwind rule constructors live outside the analysed core and are passed in as
parameters; the `From<RuleBuildError>` conversion applied by `?` wraps an
underlying construction error in `FactoryError::BuildError`. The match arms
below are exactly the arms of the source `match`. -/
def build_rule (darkNew tokensNew : RuleConfig → Except RuleBuildError RuleObj)
    (rule_type : String) (config : RuleConfig) : Except FactoryError RuleObj :=
  match rule_type with
  | "tailwind-dark-mode" => (darkNew config).mapError FactoryError.BuildError
  | "tailwind-theme-tokens" => (tokensNew config).mapError FactoryError.BuildError
  | _ => .error (.UnknownRuleType rule_type)

/-- View a `RatchetRule` through the `Rule` trait, as `impl Rule for
RatchetRule` does (src/rules/ratchet.rs, lines 64-121). -/
def RatchetRule.toRuleObj (r : RatchetRule) : RuleObj :=
  { id := r.id, severity := r.severity, file_glob := r.glob,
    check_file := r.check_file }

/-! ## Scan orchestration (src/scan.rs) -/

/-- Struct `ScanResult` (src/scan.rs, lines 31-35). It has exactly these
three fields; in particular it carries no ratchet summary. -/
structure ScanResult where
  violations : List Violation
  files_scanned : Nat
  rules_loaded : Nat

/-- Last path component, the model of `Path::file_name().unwrap_or_default()`
as used for per-rule glob matching (src/scan.rs, line 114). -/
def fileNameOf (path : String) : String :=
  (path.splitOn "/").getLastD ""

/-- Embedding of steps 5-6 of `run_scan` (src/scan.rs, lines 94-129): run
every applicable rule on every readable file and accumulate violations in
file order then rule order. The filesystem is explicit: each file comes with
`some content` or `none` for an unreadable (skipped) file; each rule comes
with its optional compiled glob, modelled as a predicate on path text as
`globset::GlobSet::is_match` is. The returned `ScanResult` is built exactly
as at src/scan.rs lines 125-129 — no ratchet post-processing occurs. -/
def scanFiles (rules : List (RuleObj × Option (String → Bool)))
    (files : List (String × Option (List Nat))) : ScanResult :=
  let step := fun (acc : List Violation × Nat) (f : String × Option (List Nat)) =>
    match f.2 with
    | none => acc
    | some content =>
      let vs := rules.foldl
        (fun vacc r =>
          match r.2 with
          | some gs =>
            if gs f.1 || gs (fileNameOf f.1) then vacc ++ r.1.check_file f.1 content
            else vacc
          | none => vacc ++ r.1.check_file f.1 content)
        acc.1
      (vs, acc.2 + 1)
  let out := files.foldl step ([], 0)
  { violations := out.1, files_scanned := out.2, rules_loaded := rules.length }

/-- A scan target as `run_scan` step 4 sees it (src/scan.rs, lines 72-92):
either a single file, or a directory together with the file entries a
recursive walk yields (paths as component lists; walk errors and non-file
entries are already dropped, as `filter_map(|e| e.ok())` and the
`file_type().is_file()` test do). -/
inductive Target where
  | file (path : List String)
  | dir (path : List String) (entries : List (List String))

/-- Model of `path.strip_prefix(target).unwrap_or(&path)` on component lists
(src/scan.rs, line 83). -/
def stripPrefixOr (base p : List String) : List String :=
  if base.isPrefixOf p then p.drop base.length else p

/-- Embedding of the file-enumeration loop of `run_scan` (src/scan.rs, lines
72-92): a file target is pushed unconditionally; a walked entry of a
directory target is pushed unless the exclude set matches its path relative
to that target. `excl` is the compiled exclude glob set, modelled as a
predicate on the relative path. -/
def collectFiles (excl : List String → Bool) (targets : List Target) :
    List (List String) :=
  targets.foldl
    (fun acc t =>
      match t with
      | .file p => acc ++ [p]
      | .dir base entries =>
        acc ++ entries.filter (fun e => !excl (stripPrefixOr base e)))
    []

/-! ## Diff parser (src/git_diff.rs) -/

/-- Enum `GitDiffError` (src/git_diff.rs, lines 7-13). -/
inductive GitDiffError where
  | GitNotFound
  | NotARepo
  | BaseRefNotFound (r : List Nat)
  | CommandFailed (msg : String)

/-- Embedding of `parse_hunk_header` (src/git_diff.rs, lines 190-213): locate
the first `+`, read the byte run up to the next space or `@`, and interpret
it as `start[,count]`; a count of 0 yields no range, an omitted count means a
single line. Ranges are inclusive (start, end) pairs, the model of
`RangeInclusive<usize>`. -/
def parse_hunk_header (line : List Nat) : Option (Nat × Nat) :=
  match findPos (fun c => c == 43) line with
  | none => none
  | some plus_pos =>
    let after_plus := line.drop (plus_pos + 1)
    let stop := (findPos (fun c => c == 32 || c == 64) after_plus).getD after_plus.length
    let range_str := after_plus.take stop
    match findPos (fun c => c == 44) range_str with
    | some comma_pos =>
      match parseUsize (range_str.take comma_pos),
            parseUsize (range_str.drop (comma_pos + 1)) with
      | some start, some count =>
        if count = 0 then none else some (start, start + count - 1)
      | _, _ => none
    | none =>
      match parseUsize range_str with
      | some start => some (start, start)
      | none => none

/-- Struct `DiffInfo` (src/git_diff.rs, lines 31-35): map from relative file
path (as bytes) to its list of inclusive changed-line ranges, the `HashMap`
modelled as an association list with at-most-once keys. -/
structure DiffInfo where
  changed_lines : List (List Nat × List (Nat × Nat))

/-- Embedding of `DiffInfo::has_file` (src/git_diff.rs, line 38). -/
def DiffInfo.has_file (info : DiffInfo) (path : List Nat) : Bool :=
  (alGet info.changed_lines path).isSome

/-- Embedding of `DiffInfo::has_line` (src/git_diff.rs, lines 43-48);
`RangeInclusive::contains` is `start ≤ line && line ≤ end`. -/
def DiffInfo.has_line (info : DiffInfo) (path : List Nat) (line : Nat) : Bool :=
  match alGet info.changed_lines path with
  | some ranges => ranges.any (fun r => decide (r.1 ≤ line) && decide (line ≤ r.2))
  | none => false

/-- The `+++ b/` new-path marker bytes. -/
def newFileMarker : List Nat := strBytes "+++ b/"

/-- The `@@` hunk-header marker bytes. -/
def hunkMarker : List Nat := strBytes "@@"

/-- One iteration of the `parse_diff` loop (src/git_diff.rs, lines 162-180),
acting on the state (accumulated map, current file). -/
def parseDiffStep (st : List (List Nat × List (Nat × Nat)) × Option (List Nat))
    (line : List Nat) : List (List Nat × List (Nat × Nat)) × Option (List Nat) :=
  if newFileMarker.isPrefixOf line then
    let path := line.drop newFileMarker.length
    (alSeed st.1 path, some path)
  else if hunkMarker.isPrefixOf line then
    match st.2 with
    | some file =>
      match parse_hunk_header line with
      | some range => (alPush st.1 file range, st.2)
      | none => st
    | none => st
  else st

/-- Embedding of `parse_diff` (src/git_diff.rs, lines 158-183). -/
def parse_diff (diff_text : List Nat) : DiffInfo :=
  { changed_lines := ((rustLines diff_text).foldl parseDiffStep ([], none)).1 }

/-- The `origin/`-qualified form of a ref (src/git_diff.rs, line 128). -/
def originQualified (r : List Nat) : List Nat := strBytes "origin/" ++ r

/-- Embedding of `resolve_base_ref` (src/git_diff.rs, lines 121-147). The
subprocess world is explicit: `pre r` is what `ref_exists r` reports before
the shallow fetch, `post r` what it reports after it (the fetch's own result
is discarded by the source, so only this before/after split matters). -/
def resolve_base_ref (pre post : List Nat → Bool) (base_ref : List Nat) :
    Except GitDiffError (List Nat) :=
  if pre base_ref then .ok base_ref
  else
    let with_origin := originQualified base_ref
    if pre with_origin then .ok with_origin
    else if post with_origin then .ok with_origin
    else if post base_ref then .ok base_ref
    else .error (.BaseRefNotFound base_ref)

/-! ## Lemmas: literal matching (claim C2) -/

theorem countOccAux_skip (p : List Nat) :
    ∀ (t : List Nat) (k : Nat), countOccAux p k t = countOccAux p 0 (t.drop k) := by
  intro t
  induction t with
  | nil => intro k; simp [countOccAux]
  | cons b t ih =>
    intro k
    cases k with
    | zero => rfl
    | succ sk =>
      show countOccAux p sk t = countOccAux p 0 ((b :: t).drop (sk + 1))
      rw [List.drop_succ_cons]
      exact ih sk

theorem findSub_none_count (p : List Nat) :
    ∀ s, findSub p s = none → countOccAux p 0 s = 0 := by
  intro s
  induction s with
  | nil => intro _; rfl
  | cons b t ih =>
    intro h
    cases hpre : p.isPrefixOf (b :: t) with
    | true => simp [findSub, hpre] at h
    | false =>
      simp only [findSub, hpre, Bool.false_eq_true, if_false, Option.map_eq_none'] at h
      simpa [countOccAux, hpre] using ih h

theorem findSub_some_count (p : List Nat) (hp : p ≠ []) :
    ∀ s i, findSub p s = some i →
      countOccAux p 0 s = countOccAux p 0 (s.drop (i + p.length)) + 1 := by
  intro s
  induction s with
  | nil =>
    intro i h
    simp [findSub, List.isEmpty_iff, hp] at h
  | cons b t ih =>
    intro i h
    have hlen : 1 ≤ p.length := List.length_pos.mpr hp
    cases hpre : p.isPrefixOf (b :: t) with
    | true =>
      simp only [findSub, hpre, if_true, Option.some.injEq] at h
      subst h
      have hdrop : (b :: t).drop (0 + p.length) = t.drop (p.length - 1) := by
        have h0 : 0 + p.length = (p.length - 1) + 1 := by omega
        rw [h0, List.drop_succ_cons]
      rw [hdrop]
      show countOccAux p 0 (b :: t) = countOccAux p 0 (t.drop (p.length - 1)) + 1
      simp only [countOccAux, hpre, if_true]
      rw [countOccAux_skip]
    | false =>
      simp only [findSub, hpre, Bool.false_eq_true, if_false, Option.map_eq_some'] at h
      obtain ⟨j, hj, hij⟩ := h
      subst hij
      have hdrop : (b :: t).drop (j + 1 + p.length) = t.drop (j + p.length) := by
        have h0 : j + 1 + p.length = (j + p.length) + 1 := by omega
        rw [h0, List.drop_succ_cons]
      rw [hdrop]
      show countOccAux p 0 (b :: t) = countOccAux p 0 (t.drop (j + p.length)) + 1
      simpa [countOccAux, hpre] using ih j hj

theorem literalLoop_length (p line : List Nat) (hp : p ≠ []) :
    ∀ (fuel searchStart : Nat), line.length + 1 ≤ fuel + searchStart →
      (literalLoop p line fuel searchStart).length
        = countOccAux p 0 (line.drop searchStart) := by
  intro fuel
  induction fuel with
  | zero =>
    intro searchStart h
    have : line.drop searchStart = [] := List.drop_eq_nil_of_le (by omega)
    simp [literalLoop, this, countOccAux]
  | succ fuel ih =>
    intro searchStart h
    have hlen : 1 ≤ p.length := List.length_pos.mpr hp
    cases hfind : findSub p (line.drop searchStart) with
    | none =>
      simp only [literalLoop, hfind, List.length_nil]
      exact (findSub_none_count p _ hfind).symm
    | some pos =>
      simp only [literalLoop, hfind, List.length_cons]
      rw [ih (searchStart + pos + p.length) (by omega)]
      rw [findSub_some_count p hp _ pos hfind, List.drop_drop, Nat.add_assoc]

theorem literalMatches_length (p line : List Nat) (hp : p ≠ []) :
    (literalMatches p line).length = countOcc p line := by
  have := literalLoop_length p line hp (line.length + 1) 0 (by omega)
  simpa [literalMatches, countOcc] using this

theorem checkLines_length_lit (rule : RatchetRule) (fp : String)
    (hre : rule.compiled_regex = none) (hp : rule.pattern ≠ []) :
    ∀ (lines : List (List Nat)) (idx : Nat),
      (checkLines rule fp lines idx).length
        = (lines.map (fun l => countOcc rule.pattern l)).sum := by
  intro lines
  induction lines with
  | nil => intro idx; rfl
  | cons l rest ih =>
    intro idx
    simp only [checkLines, List.length_append, List.map_cons, List.sum_cons, ih (idx + 1)]
    congr 1
    simp only [perLine, hre, List.length_map]
    exact literalMatches_length rule.pattern l hp

/-- A concrete literal ratchet rule with pattern `aa`, for the worked example
in claim C2. -/
def aaRule : RatchetRule :=
  { id := "aa-rule", severity := .Warning, message := "m", suggest := none,
    glob := none, pattern := strBytes "aa", max_count := 0, compiled_regex := none }

/-- Claim C2: for every non-empty literal pattern and every content, the
number of violations reported by a literal-mode `RatchetRule`'s check
operation equals, summed over the lines of the content, the count of
non-overlapping left-to-right occurrences of the pattern in that line (the
cursor advancing just past each match); in particular pattern `aa` on content
`aaa` yields exactly one match. -/
theorem literal_count_spec :
    (∀ (rule : RatchetRule) (fp : String) (content : List Nat),
        rule.compiled_regex = none → rule.pattern ≠ [] →
        (rule.check_file fp content).length
          = ((rustLines content).map (fun l => countOcc rule.pattern l)).sum)
    ∧ (aaRule.check_file "f" (strBytes "aaa")).length = 1 := by
  constructor
  · intro rule fp content hre hp
    exact checkLines_length_lit rule fp hre hp (rustLines content) 0
  · decide

/-- Witness for claim C2's theorem at the concrete rule and content. -/
theorem literal_count_spec_witness :
    (aaRule.check_file "f" (strBytes "aaa")).length
      = ((rustLines (strBytes "aaa")).map (fun l => countOcc aaRule.pattern l)).sum :=
  literal_count_spec.1 aaRule "f" (strBytes "aaa") rfl (by decide)

/-! ## Lemmas: violation ordering (claim C10) and regex columns (claim C8) -/

/-- The line number a violation reports (all violations produced by
`check_file` carry one). -/
def lineNo (v : Violation) : Nat := v.line.getD 0

/-- The column a violation reports. -/
def colNo (v : Violation) : Nat := v.column.getD 0

/-- Strict report order: earlier line, or same line and strictly smaller
column. -/
def violBefore (v w : Violation) : Prop :=
  lineNo v < lineNo w ∨ (lineNo v = lineNo w ∧ colNo v < colNo w)

theorem literalLoop_sorted (p line : List Nat) (hp : p ≠ []) :
    ∀ (fuel searchStart : Nat),
      List.Pairwise (· < ·) (literalLoop p line fuel searchStart)
      ∧ ∀ c ∈ literalLoop p line fuel searchStart, searchStart ≤ c := by
  intro fuel
  induction fuel with
  | zero => intro searchStart; simp [literalLoop]
  | succ fuel ih =>
    intro searchStart
    have hlen : 1 ≤ p.length := List.length_pos.mpr hp
    cases hfind : findSub p (line.drop searchStart) with
    | none => simp [literalLoop, hfind]
    | some pos =>
      obtain ⟨hsorted, hmem⟩ := ih (searchStart + pos + p.length)
      simp only [literalLoop, hfind]
      refine ⟨List.pairwise_cons.mpr ⟨fun c hc => ?_, hsorted⟩, fun c hc => ?_⟩
      · have := hmem c hc
        omega
      · rcases List.mem_cons.mp hc with h | h
        · omega
        · have := hmem c h
          omega

theorem perLine_line_eq (rule : RatchetRule) (fp : String) (idx : Nat)
    (line : List Nat) : ∀ v ∈ perLine rule fp idx line, v.line = some (idx + 1) := by
  intro v hv
  rw [perLine] at hv
  cases hre : rule.compiled_regex with
  | some re =>
    rw [hre] at hv
    obtain ⟨m, _, rfl⟩ := List.mem_map.mp hv
    rfl
  | none =>
    rw [hre] at hv
    obtain ⟨c, _, rfl⟩ := List.mem_map.mp hv
    rfl

theorem perLine_pairwise (rule : RatchetRule) (fp : String) (idx : Nat)
    (line : List Nat)
    (hm : ∀ re, rule.compiled_regex = some re →
      List.Pairwise (fun a b => a.1 < b.1) (re line))
    (hp : rule.compiled_regex = none → rule.pattern ≠ []) :
    List.Pairwise violBefore (perLine rule fp idx line) := by
  rw [perLine]
  cases hre : rule.compiled_regex with
  | some re =>
    refine List.Pairwise.map _ (fun a b hab => ?_) (hm re hre)
    exact Or.inr ⟨rfl, by simp [lineNo, colNo]; omega⟩
  | none =>
    refine List.Pairwise.map _ (fun a b hab => ?_)
      (literalLoop_sorted rule.pattern line (hp hre) (line.length + 1) 0).1
    exact Or.inr ⟨rfl, by simp [lineNo, colNo]; omega⟩

theorem checkLines_line_lb (rule : RatchetRule) (fp : String) :
    ∀ (lines : List (List Nat)) (idx : Nat) (v : Violation),
      v ∈ checkLines rule fp lines idx → idx + 1 ≤ lineNo v := by
  intro lines
  induction lines with
  | nil => intro idx v hv; simp [checkLines] at hv
  | cons l rest ih =>
    intro idx v hv
    rw [checkLines] at hv
    rcases List.mem_append.mp hv with h | h
    · have := perLine_line_eq rule fp idx l v h
      simp [lineNo, this]
    · have := ih (idx + 1) v h
      omega

theorem checkLines_pairwise (rule : RatchetRule) (fp : String)
    (hm : ∀ re, rule.compiled_regex = some re →
      ∀ line, List.Pairwise (fun a b => a.1 < b.1) (re line))
    (hp : rule.compiled_regex = none → rule.pattern ≠ []) :
    ∀ (lines : List (List Nat)) (idx : Nat),
      List.Pairwise violBefore (checkLines rule fp lines idx) := by
  intro lines
  induction lines with
  | nil => intro idx; simp [checkLines]
  | cons l rest ih =>
    intro idx
    rw [checkLines, List.pairwise_append]
    refine ⟨perLine_pairwise rule fp idx l (fun re hre => hm re hre l) hp,
      ih (idx + 1), fun a ha b hb => ?_⟩
    have ha' := perLine_line_eq rule fp idx l a ha
    have hb' := checkLines_line_lb rule fp rest (idx + 1) b hb
    left
    simp [lineNo, ha'] at *
    omega

/-- Claim C10 (implicit): the violation list returned by `check_file` is
sorted — nondecreasing line numbers, and strictly increasing columns within a
line. For regex mode this rests on the regex engine's `find_iter` contract of
yielding successive non-overlapping matches with strictly increasing starts;
for literal mode it is unconditional for the nonempty patterns construction
enforces. -/
theorem check_file_sorted (rule : RatchetRule) (fp : String) (content : List Nat)
    (hm : ∀ re, rule.compiled_regex = some re →
      ∀ line, List.Pairwise (fun a b => a.1 < b.1) (re line))
    (hp : rule.compiled_regex = none → rule.pattern ≠ []) :
    List.Pairwise violBefore (rule.check_file fp content) :=
  checkLines_pairwise rule fp hm hp (rustLines content) 0

/-- Witness for claim C10's theorem: the literal rule `aa` on a two-line
content with several matches. -/
theorem check_file_sorted_witness :
    List.Pairwise violBefore (aaRule.check_file "f" (strBytes "aa aa" ++ [10] ++ strBytes "aa")) :=
  check_file_sorted aaRule "f" _ (fun _ h => nomatch h) (fun _ => by decide)

theorem checkLines_mem (rule : RatchetRule) (fp : String) :
    ∀ (lines : List (List Nat)) (idx : Nat) (v : Violation),
      v ∈ checkLines rule fp lines idx
        ↔ ∃ j l, lines.get? j = some l ∧ v ∈ perLine rule fp (idx + j) l := by
  intro lines
  induction lines with
  | nil => intro idx v; simp [checkLines]
  | cons l0 rest ih =>
    intro idx v
    rw [checkLines, List.mem_append, ih (idx + 1)]
    constructor
    · rintro (h | ⟨j, l, hj, hv⟩)
      · exact ⟨0, l0, rfl, by simpa using h⟩
      · refine ⟨j + 1, l, by simpa using hj, ?_⟩
        have h0 : idx + (j + 1) = idx + 1 + j := by omega
        rw [h0]
        exact hv
    · rintro ⟨j, l, hj, hv⟩
      cases j with
      | zero =>
        left
        simp only [List.get?_cons_zero, Option.some.injEq] at hj
        subst hj
        simpa using hv
      | succ j =>
        right
        refine ⟨j, l, by simpa using hj, ?_⟩
        have h0 : idx + 1 + j = idx + (j + 1) := by omega
        rw [h0]
        exact hv

/-- A concrete abstract matcher for the witness of claim C8: one match,
starting at byte offset 1, on the line `xab`. -/
def rxMatcher : Matcher := fun line => if line = strBytes "xab" then [(1, 3)] else []

/-- A concrete regex-mode ratchet rule using `rxMatcher`. -/
def rxRule : RatchetRule :=
  { id := "rx", severity := .Error, message := "m", suggest := none,
    glob := none, pattern := strBytes "ab", max_count := 0,
    compiled_regex := some rxMatcher }

/-- Claim C8: in regex mode every reported violation's column is the byte
offset of its match's start plus 1, every `find_iter` match on every line is
reported, and (in both modes) every reported line number is 1-indexed. -/
theorem regex_columns_one_indexed :
    (∀ (rule : RatchetRule) (re : Matcher) (fp : String) (content : List Nat),
        rule.compiled_regex = some re →
        (∀ v ∈ rule.check_file fp content,
            ∃ i l m, (rustLines content).get? i = some l ∧ m ∈ re l ∧
              v.line = some (i + 1) ∧ v.column = some (m.1 + 1))
        ∧ (∀ (i : Nat) (l : List Nat) (m : Nat × Nat),
            (rustLines content).get? i = some l → m ∈ re l →
            ∃ v ∈ rule.check_file fp content,
              v.line = some (i + 1) ∧ v.column = some (m.1 + 1)))
    ∧ (∀ (rule : RatchetRule) (fp : String) (content : List Nat) (v : Violation),
        v ∈ rule.check_file fp content → ∃ n, v.line = some n ∧ 1 ≤ n) := by
  constructor
  · intro rule re fp content hre
    constructor
    · intro v hv
      obtain ⟨j, l, hj, hvp⟩ := (checkLines_mem rule fp (rustLines content) 0 v).mp hv
      rw [Nat.zero_add] at hvp
      rw [perLine, hre] at hvp
      obtain ⟨m, hm, rfl⟩ := List.mem_map.mp hvp
      exact ⟨j, l, m, hj, hm, rfl, rfl⟩
    · intro i l m hi hm
      refine ⟨{ rule_id := rule.id, severity := rule.severity, file := fp,
                line := some (i + 1), column := some (m.1 + 1),
                message := rule.message, suggest := rule.suggest,
                source_line := some l, fix := none }, ?_, rfl, rfl⟩
      refine (checkLines_mem rule fp (rustLines content) 0 _).mpr ⟨i, l, hi, ?_⟩
      rw [Nat.zero_add, perLine, hre]
      exact List.mem_map.mpr ⟨m, hm, rfl⟩
  · intro rule fp content v hv
    obtain ⟨j, l, _, hvp⟩ := (checkLines_mem rule fp (rustLines content) 0 v).mp hv
    have := perLine_line_eq rule fp (0 + j) l v hvp
    exact ⟨0 + j + 1, this, by omega⟩

/-- Witness for claim C8's theorem: the concrete regex rule on content `xab`
reports the match at line 1, column 2. -/
theorem regex_columns_one_indexed_witness :
    ∃ v ∈ rxRule.check_file "f" (strBytes "xab"),
      v.line = some 1 ∧ v.column = some 2 := by
  simpa using
    (regex_columns_one_indexed.1 rxRule rxMatcher "f" (strBytes "xab") rfl).2
      0 (strBytes "xab") (1, 3) (by decide) (by decide)

/-! ## Construction errors (claim C5) and the factory (claim C9) -/

/-- A `RuleConfig` with the given pattern / max_count / regex fields and
fixed id `r`; the other fields are irrelevant to construction. -/
def mkCfg (pat : Option (List Nat)) (mc : Option Nat) (rx : Bool) : RuleConfig :=
  { id := "r", severity := .Error, message := "m", suggest := none, glob := none,
    allowed_classes := [], token_map := [], pattern := pat, max_count := mc,
    packages := [], regex := rx, manifest := none }

/-- A regex compiler that rejects every pattern, for exercising the
compile-failure path. -/
def noRegex : List Nat → Except String Matcher := fun _ => .error "unsupported"

/-- Claim C5: `RatchetRule` construction fails with `MissingField("pattern")`
exactly when the pattern is absent or empty; fails with
`MissingField("max_count")` when the pattern is present and non-empty but
max_count is absent; fails with `InvalidRegex(id, cause)` when regex mode is
set and the pattern does not compile; and succeeds with `max_count = 0`
when pattern and max_count are supplied. -/
theorem ratchet_new_errors :
    ∀ (compile : List Nat → Except String Matcher) (cfg : RuleConfig),
      (RatchetRule.new compile cfg = .error (.MissingField cfg.id "pattern")
        ↔ cfg.pattern = none ∨ cfg.pattern = some [])
      ∧ (∀ p, cfg.pattern = some p → p ≠ [] → cfg.max_count = none →
          RatchetRule.new compile cfg = .error (.MissingField cfg.id "max_count"))
      ∧ (∀ p m e, cfg.pattern = some p → p ≠ [] → cfg.max_count = some m →
          cfg.regex = true → compile p = .error e →
          RatchetRule.new compile cfg = .error (.InvalidRegex cfg.id e))
      ∧ (∀ p, cfg.pattern = some p → p ≠ [] → cfg.max_count = some 0 →
          (cfg.regex = false ∨ ∃ mr, compile p = .ok mr) →
          ∃ rule, RatchetRule.new compile cfg = .ok rule ∧ rule.max_count = 0) := by
  intro compile cfg
  cases hpat : cfg.pattern with
  | none =>
    refine ⟨?_, ?_, ?_, ?_⟩
    · simp [RatchetRule.new, hpat, Option.filter]
    · intro p hp
      exact nomatch hp
    · intro p m e hp
      exact nomatch hp
    · intro p hp
      exact nomatch hp
  | some p0 =>
    by_cases hp0 : p0 = []
    · subst hp0
      refine ⟨?_, ?_, ?_, ?_⟩
      · simp [RatchetRule.new, hpat, Option.filter]
      · intro p hp hne
        rw [Option.some.injEq] at hp
        exact absurd hp.symm hne
      · intro p m e hp hne
        rw [Option.some.injEq] at hp
        exact absurd hp.symm hne
      · intro p hp hne
        rw [Option.some.injEq] at hp
        exact absurd hp.symm hne
    · have hfil : (some p0).filter (fun p => !p.isEmpty) = some p0 := by
        simp [Option.filter, List.isEmpty_iff, hp0]
      refine ⟨?_, ?_, ?_, ?_⟩
      · rw [RatchetRule.new, hpat, hfil]
        cases hmc : cfg.max_count with
        | none => simp [hp0]
        | some m =>
          cases hrx : cfg.regex with
          | false => simp [hp0]
          | true =>
            cases hcomp : compile p0 with
            | error e => simp [hcomp, Except.mapError, Except.map, hp0]
            | ok mr => simp [hcomp, Except.mapError, Except.map, hp0]
      · intro p hp hne hmc
        rw [Option.some.injEq] at hp
        subst hp
        rw [RatchetRule.new, hpat, hfil, hmc]
      · intro p m e hp hne hmc hrx hcomp
        rw [Option.some.injEq] at hp
        subst hp
        rw [RatchetRule.new, hpat, hfil, hmc, hrx]
        simp [hcomp, Except.mapError, Except.map]
      · intro p hp hne hmc hok
        rw [Option.some.injEq] at hp
        subst hp
        rw [RatchetRule.new, hpat, hfil, hmc]
        rcases hok with hrx | ⟨mr, hcomp⟩
        · rw [hrx]
          exact ⟨_, rfl, rfl⟩
        · cases hrx : cfg.regex with
          | false => exact ⟨_, rfl, rfl⟩
          | true =>
            simp only [if_true]
            simp [hcomp, Except.mapError, Except.map]

/-- Witness for claim C5's theorem: the four construction outcomes at
concrete configurations. -/
theorem ratchet_new_errors_witness :
    RatchetRule.new noRegex (mkCfg none (some 1) false)
      = .error (.MissingField "r" "pattern")
    ∧ RatchetRule.new noRegex (mkCfg (some (strBytes "x")) none false)
      = .error (.MissingField "r" "max_count")
    ∧ RatchetRule.new noRegex (mkCfg (some (strBytes "(")) (some 1) true)
      = .error (.InvalidRegex "r" "unsupported")
    ∧ ∃ rule, RatchetRule.new noRegex (mkCfg (some (strBytes "x")) (some 0) false)
        = .ok rule ∧ rule.max_count = 0 :=
  ⟨(ratchet_new_errors noRegex (mkCfg none (some 1) false)).1.mpr (Or.inl rfl),
   (ratchet_new_errors noRegex (mkCfg (some (strBytes "x")) none false)).2.1
     (strBytes "x") rfl (by decide) rfl,
   (ratchet_new_errors noRegex (mkCfg (some (strBytes "(")) (some 1) true)).2.2.1
     (strBytes "(") 1 "unsupported" rfl (by decide) rfl rfl rfl,
   (ratchet_new_errors noRegex (mkCfg (some (strBytes "x")) (some 0) false)).2.2.2
     (strBytes "x") rfl (by decide) rfl (Or.inl rfl)⟩

/-- A well-formed ratchet configuration: pattern `TODO`, budget 5. -/
def ratchetCfg : RuleConfig := mkCfg (some (strBytes "TODO")) (some 5) false

/-- Claim C9 (evaluating the code at the failing input): the factory's match
has arms only for the two tailwind type tags, so the tag of the built-in
ratchet rule — like every tag other than those two — falls to the wildcard
arm and fails with `UnknownRuleType`, no matter which builders are plugged
in; meanwhile `RatchetRule::new` itself happily accepts a well-formed ratchet
configuration, so no type tag can ever reach the ratchet constructor through
`build_rule`. -/
theorem factory_no_ratchet_dispatch :
    (∀ (darkNew tokensNew : RuleConfig → Except RuleBuildError RuleObj)
        (cfg : RuleConfig),
        build_rule darkNew tokensNew "ratchet" cfg
          = .error (.UnknownRuleType "ratchet"))
    ∧ ∃ rule, RatchetRule.new noRegex ratchetCfg = .ok rule ∧ rule.max_count = 5 := by
  exact ⟨fun d t cfg => rfl, ⟨_, rfl, rfl⟩⟩

/-! ## Scan-layer ratchet resolution (claim C1) -/

/-- The ratchet rule of the spec's end-to-end example: literal pattern
`TODO`, budget 5. -/
def todoRule : RatchetRule :=
  { id := "legacy-todo", severity := .Warning, message := "TODO found",
    suggest := none, glob := none, pattern := strBytes "TODO",
    max_count := 5, compiled_regex := none }

/-- One loaded ratchet rule, one readable file with three pattern hits. -/
def demoScan : ScanResult :=
  scanFiles [(todoRule.toRuleObj, none)]
    [("test.ts", some (strBytes "// TODO fix this TODO and that TODO"))]

/-- Claim C1 (evaluating the code at the failing input): with one loaded
ratchet rule of budget 5 and a scan finding 3 occurrences, `run_scan`'s
aggregation returns all 3 violations in the result even though
found = 3 ≤ max_count = 5 — the claimed suppression never happens, and the
`ScanResult` type itself (violations, files_scanned, rules_loaded only)
has no `ratchet_counts` map in which the (3, 5) pair could be recorded. -/
theorem scan_no_ratchet_resolution :
    demoScan.violations.length = 3
    ∧ demoScan.violations.map (fun v => v.column) = [some 4, some 18, some 32]
    ∧ demoScan.violations.all (fun v => v.rule_id == "legacy-todo") = true
    ∧ demoScan.files_scanned = 1
    ∧ demoScan.rules_loaded = 1
    ∧ todoRule.max_count = 5 := by
  decide

/-! ## Base-ref resolution (claim C6) -/

/-- Claim C6: base-ref resolution probes, in order, the literal ref
(pre-fetch), the `origin/`-qualified ref (pre-fetch), the qualified ref again
(post-fetch), and the literal ref again (post-fetch); it returns the first
probe that hits and fails with `BaseRefNotFound(ref)` if and only if all
four miss. -/
theorem base_ref_resolution_order :
    ∀ (pre post : List Nat → Bool) (r : List Nat),
      (resolve_base_ref pre post r
        = match ([(pre, r), (pre, originQualified r), (post, originQualified r),
                  (post, r)].find? (fun pr => pr.1 pr.2)) with
          | some pr => .ok pr.2
          | none => .error (.BaseRefNotFound r))
      ∧ ((∃ e, resolve_base_ref pre post r = .error e)
          ↔ pre r = false ∧ pre (originQualified r) = false
            ∧ post (originQualified r) = false ∧ post r = false) := by
  intro pre post r
  cases h1 : pre r <;> cases h2 : pre (originQualified r) <;>
    cases h3 : post (originQualified r) <;> cases h4 : post r <;>
      simp [resolve_base_ref, List.find?, h1, h2, h3, h4]

/-! ## File enumeration (claim C4) -/

theorem collectFiles_eq (excl : List String → Bool) :
    ∀ (targets : List Target) (acc : List (List String)),
      targets.foldl
        (fun acc t =>
          match t with
          | .file p => acc ++ [p]
          | .dir base entries =>
            acc ++ entries.filter (fun e => !excl (stripPrefixOr base e)))
        acc
      = acc ++ targets.flatMap
          (fun t =>
            match t with
            | .file p => [p]
            | .dir base entries =>
              entries.filter (fun e => !excl (stripPrefixOr base e))) := by
  intro targets
  induction targets with
  | nil => intro acc; simp
  | cons t ts ih =>
    intro acc
    cases t with
    | file p => simp [List.foldl_cons, ih]
    | dir base entries => simp [List.foldl_cons, ih]

/-- Claim C4: a single-file target is enumerated unconditionally (whatever
the exclude set says), while an entry walked under a directory target is
enumerated exactly when the exclude set does not match its path taken
relative to that target — the one test that also skips everything under an
excluded subpath. -/
theorem scan_file_enumeration :
    ∀ (excl : List String → Bool) (targets : List Target) (p : List String),
      p ∈ collectFiles excl targets
        ↔ (Target.file p ∈ targets
           ∨ ∃ base entries, Target.dir base entries ∈ targets ∧ p ∈ entries
              ∧ excl (stripPrefixOr base p) = false) := by
  intro excl targets p
  rw [collectFiles, collectFiles_eq, List.nil_append, List.mem_flatMap]
  constructor
  · rintro ⟨t, ht, hp⟩
    cases t with
    | file q =>
      simp only [List.mem_singleton] at hp
      subst hp
      exact Or.inl ht
    | dir base entries =>
      obtain ⟨hpe, hex⟩ := List.mem_filter.mp hp
      exact Or.inr ⟨base, entries, ht, hpe, by simpa using hex⟩
  · rintro (ht | ⟨base, entries, ht, hpe, hex⟩)
    · exact ⟨Target.file p, ht, by simp⟩
    · exact ⟨Target.dir base entries, ht, List.mem_filter.mpr ⟨hpe, by simp [hex]⟩⟩

/-! ## Lemmas: hunk-header parsing (claim C3) -/

theorem natCharsAux_digit :
    ∀ (fuel n : Nat), ∀ c ∈ natCharsAux fuel n, 48 ≤ c ∧ c ≤ 57 := by
  intro fuel
  induction fuel with
  | zero => intro n c hc; exact absurd hc (List.not_mem_nil c)
  | succ fuel ih =>
    intro n c hc
    rw [natCharsAux] at hc
    by_cases h : n < 10
    · rw [if_pos h] at hc
      simp only [List.mem_singleton] at hc
      omega
    · rw [if_neg h] at hc
      rcases List.mem_append.mp hc with h1 | h1
      · exact ih (n / 10) c h1
      · simp only [List.mem_singleton] at h1
        have : n % 10 < 10 := Nat.mod_lt _ (by omega)
        omega

theorem natChars_digit : ∀ (n : Nat), ∀ c ∈ natChars n, 48 ≤ c ∧ c ≤ 57 :=
  fun n => natCharsAux_digit (n + 1) n

theorem natChars_ne_nil (n : Nat) : natChars n ≠ [] := by
  rw [natChars, natCharsAux]
  by_cases h : n < 10
  · simp [h]
  · simp [h]

theorem natCharsAux_foldl :
    ∀ (fuel n : Nat), n < 10 ^ fuel → ∀ (acc : Nat),
      (natCharsAux fuel n).foldl (fun a c => a * 10 + (c - 48)) acc
        = acc * 10 ^ (natCharsAux fuel n).length + n := by
  intro fuel
  induction fuel with
  | zero =>
    intro n hn acc
    have : n = 0 := by simpa using hn
    subst this
    simp [natCharsAux]
  | succ fuel ih =>
    intro n hn acc
    rw [natCharsAux]
    by_cases h : n < 10
    · rw [if_pos h]
      simp only [List.foldl_cons, List.foldl_nil, List.length_cons, List.length_nil,
        Nat.zero_add, pow_one, Nat.add_sub_cancel_left]
    · rw [if_neg h]
      have hq : n / 10 < 10 ^ fuel := by
        rw [Nat.div_lt_iff_lt_mul (by omega : 0 < 10)]
        calc n < 10 ^ (fuel + 1) := hn
        _ = 10 ^ fuel * 10 := by rw [pow_succ]
      obtain ⟨q, r, rfl, hr⟩ : ∃ q r, n = 10 * q + r ∧ r < 10 :=
        ⟨n / 10, n % 10, (Nat.div_add_mod n 10).symm, Nat.mod_lt _ (by omega)⟩
      have hdiv : (10 * q + r) / 10 = q := by omega
      have hmod : (10 * q + r) % 10 = r := by omega
      rw [hdiv] at hq
      rw [hdiv, hmod, List.foldl_append, ih q hq acc]
      simp only [List.foldl_cons, List.foldl_nil, List.length_append, List.length_cons,
        List.length_nil, Nat.zero_add, Nat.add_sub_cancel_left]
      rw [pow_succ]
      ring

theorem natChars_foldl (n : Nat) :
    (natChars n).foldl (fun a c => a * 10 + (c - 48)) 0
      = 0 * 10 ^ (natChars n).length + n := by
  have hb : n < 10 ^ (n + 1) := by
    calc n < 10 ^ n := Nat.lt_pow_self (by omega) n
    _ ≤ 10 ^ (n + 1) := Nat.pow_le_pow_right (by omega) (by omega)
  exact natCharsAux_foldl (n + 1) n hb 0

theorem parseUsize_natChars (n : Nat) (hn : n < 2 ^ 64) :
    parseUsize (natChars n) = some n := by
  obtain ⟨c, rest, hcons⟩ : ∃ c rest, natChars n = c :: rest := by
    cases hx : natChars n with
    | nil => exact absurd hx (natChars_ne_nil n)
    | cons c rest => exact ⟨c, rest, rfl⟩
  have hc : 48 ≤ c ∧ c ≤ 57 :=
    natChars_digit n c (by rw [hcons]; exact List.mem_cons_self c rest)
  have hstrip : stripPlus (natChars n) = natChars n := by
    rw [hcons, stripPlus, if_neg (by omega : ¬ c = 43)]
  have hempty : (natChars n).isEmpty = false := by
    rw [hcons]
    rfl
  have hall : (natChars n).all (fun c => decide (48 ≤ c ∧ c ≤ 57)) = true := by
    rw [List.all_eq_true]
    intro x hx
    exact decide_eq_true (natChars_digit n x hx)
  have hfold := natChars_foldl n
  simp only [parseUsize, hstrip, hempty, Bool.false_eq_true, if_false, hall, if_true,
    hfold, Nat.zero_mul, Nat.zero_add, if_pos hn]

theorem findPos_none (p : Nat → Bool) :
    ∀ (xs : List Nat), (∀ x ∈ xs, p x = false) → findPos p xs = none := by
  intro xs
  induction xs with
  | nil => intro _; rfl
  | cons a xs ih =>
    intro h
    simp only [findPos, h a (List.mem_cons_self a xs), Bool.false_eq_true, if_false,
      ih (fun x hx => h x (List.mem_cons_of_mem a hx)), Option.map_none']

theorem findPos_append_cons (p : Nat → Bool) :
    ∀ (xs : List Nat) (y : Nat) (ys : List Nat),
      (∀ x ∈ xs, p x = false) → p y = true →
      findPos p (xs ++ y :: ys) = some xs.length := by
  intro xs
  induction xs with
  | nil => intro y ys _ hy; simp [findPos, hy]
  | cons a xs ih =>
    intro y ys hxs hy
    have ha : p a = false := hxs a (List.mem_cons_self a xs)
    simp only [List.cons_append, findPos, ha, Bool.false_eq_true, if_false]
    show Option.map (fun x => x + 1) (findPos p (xs ++ y :: ys)) = some (a :: xs).length
    rw [ih y ys (fun x hx => hxs x (List.mem_cons_of_mem a hx)) hy]
    rfl

theorem dropAppendSucc (xs : List Nat) (y : Nat) (ys : List Nat) :
    (xs ++ y :: ys).drop (xs.length + 1) = ys := by
  rw [← List.drop_drop, List.drop_left]
  rfl

/-- The optional `,count` part of a hunk range. -/
def optCommaPart : Option Nat → List Nat
  | none => []
  | some k => 44 :: natChars k

/-- A well-formed hunk header `@@ -old[,oldc] +new[,newc] @@ctx`, spelled in
bytes (64 64 32 45 is `@@ -`, 32 43 is ` +`, 32 64 64 is ` @@`). -/
def mkHunkHeader (old : Nat) (oldc : Option Nat) (nw : Nat) (newc : Option Nat)
    (ctx : List Nat) : List Nat :=
  [64, 64, 32, 45] ++ natChars old ++ optCommaPart oldc
    ++ [32, 43] ++ natChars nw ++ optCommaPart newc ++ [32, 64, 64] ++ ctx

example : mkHunkHeader 10 (some 3) 15 (some 4) [] = strBytes "@@ -10,3 +15,4 @@" := by decide
example : mkHunkHeader 10 (some 0) 15 none [] = strBytes "@@ -10,0 +15 @@" := by decide

theorem optCommaPart_mem : ∀ (o : Option Nat) (x : Nat),
    x ∈ optCommaPart o → x = 44 ∨ (48 ≤ x ∧ x ≤ 57) := by
  intro o x hx
  cases o with
  | none => exact absurd hx (List.not_mem_nil x)
  | some k =>
    rcases List.mem_cons.mp hx with h | h
    · exact Or.inl h
    · exact Or.inr (natChars_digit k x h)

/-- Claim C3: parsing a unified-diff hunk header of the form
`@@ -old[,oldcount] +new[,newcount] @@context` yields the inclusive new-side
range from `new` with length `newcount`, an omitted `newcount` defaulting to
1 and `newcount = 0` yielding no range; concretely `@@ -10,3 +15,4 @@` gives
15..=18, `@@ -10,0 +15 @@` gives 15..=15, and `@@ -10,3 +14,0 @@` gives no
range. -/
theorem hunk_header_ranges :
    (∀ (old : Nat) (oldc : Option Nat) (nw : Nat) (newc : Option Nat) (ctx : List Nat),
        nw < 2 ^ 64 → (∀ k, newc = some k → k < 2 ^ 64) →
        parse_hunk_header (mkHunkHeader old oldc nw newc ctx)
          = match newc with
            | none => some (nw, nw)
            | some 0 => none
            | some (k + 1) => some (nw, nw + k))
    ∧ parse_hunk_header (strBytes "@@ -10,3 +15,4 @@") = some (15, 18)
    ∧ parse_hunk_header (strBytes "@@ -10,0 +15 @@") = some (15, 15)
    ∧ parse_hunk_header (strBytes "@@ -10,3 +14,0 @@") = none := by
  refine ⟨?_, by decide, by decide, by decide⟩
  intro old oldc nw newc ctx hnw hnewc
  have hsplit : mkHunkHeader old oldc nw newc ctx
      = ([64, 64, 32, 45] ++ natChars old ++ optCommaPart oldc ++ [32])
        ++ 43 :: ((natChars nw ++ optCommaPart newc) ++ 32 :: 64 :: 64 :: ctx) := by
    simp [mkHunkHeader, List.append_assoc]
  have hApred : ∀ x ∈ ([64, 64, 32, 45] ++ natChars old ++ optCommaPart oldc ++ [32] : List Nat),
      (fun c => c == 43) x = false := by
    intro x hx
    have hne : x ≠ 43 := by
      rcases List.mem_append.mp hx with hx | hx
      · rcases List.mem_append.mp hx with hx | hx
        · rcases List.mem_append.mp hx with hx | hx
          · simp only [List.mem_cons, List.not_mem_nil, or_false] at hx
            omega
          · have := natChars_digit old x hx
            omega
        · rcases optCommaPart_mem oldc x hx with h | h <;> omega
      · simp only [List.mem_singleton] at hx
        omega
    simpa using hne
  have hplus := findPos_append_cons (fun c => c == 43)
    ([64, 64, 32, 45] ++ natChars old ++ optCommaPart oldc ++ [32]) 43
    ((natChars nw ++ optCommaPart newc) ++ 32 :: 64 :: 64 :: ctx) hApred (by rfl)
  have hdropA := dropAppendSucc
    ([64, 64, 32, 45] ++ natChars old ++ optCommaPart oldc ++ [32]) 43
    ((natChars nw ++ optCommaPart newc) ++ 32 :: 64 :: 64 :: ctx)
  have hBpred : ∀ x ∈ natChars nw ++ optCommaPart newc,
      (fun c => c == 32 || c == 64) x = false := by
    intro x hx
    have hne : x ≠ 32 ∧ x ≠ 64 := by
      rcases List.mem_append.mp hx with hx | hx
      · have := natChars_digit nw x hx
        omega
      · rcases optCommaPart_mem newc x hx with h | h <;> omega
    simp [hne.1, hne.2]
  have hstop := findPos_append_cons (fun c => c == 32 || c == 64)
    (natChars nw ++ optCommaPart newc) 32 (64 :: 64 :: ctx) hBpred (by rfl)
  rw [hsplit, parse_hunk_header, hplus]
  simp only [hdropA, hstop, Option.getD_some, List.take_left]
  cases newc with
  | none =>
    have hnone : findPos (fun c => c == 44) (natChars nw ++ optCommaPart none) = none := by
      apply findPos_none
      intro x hx
      rcases List.mem_append.mp hx with hx | hx
      · have := natChars_digit nw x hx
        simpa using (by omega : x ≠ 44)
      · exact absurd hx (List.not_mem_nil x)
    rw [hnone]
    simp only [optCommaPart, List.append_nil]
    rw [parseUsize_natChars nw hnw]
  | some k =>
    simp only [optCommaPart]
    have hcomma := findPos_append_cons (fun c => c == 44) (natChars nw) 44 (natChars k)
      (fun x hx => by
        have := natChars_digit nw x hx
        simpa using (by omega : x ≠ 44))
      (by rfl)
    rw [hcomma]
    simp only [List.take_left, dropAppendSucc]
    rw [parseUsize_natChars nw hnw, parseUsize_natChars k (hnewc k rfl)]
    cases k with
    | zero => simp
    | succ k =>
      simp only [if_neg (by omega : ¬ (k + 1) = 0)]
      have heq : nw + (k + 1) - 1 = nw + k := by omega
      rw [heq]

/-- Witness for claim C3's theorem: the general statement applied at the
header `@@ -10,3 +15,4 @@`. -/
theorem hunk_header_ranges_witness :
    parse_hunk_header (mkHunkHeader 10 (some 3) 15 (some 4) []) = some (15, 18) := by
  have h := hunk_header_ranges.1 10 (some 3) 15 (some 4) [] (by norm_num)
    (fun k hk => by cases hk; norm_num)
  simpa using h

/-! ## Lemmas: diff lookup (claim C7) -/

theorem alGet_alSeed {K R : Type} [DecidableEq K] :
    ∀ (m : List (K × List R)) (k p : K),
      (alGet (alSeed m k) p).isSome = true ↔ (alGet m p).isSome = true ∨ p = k := by
  intro m k p
  induction m with
  | nil =>
    by_cases h : k = p
    · simp [alSeed, alGet, h]
    · simp [alSeed, alGet, h, Ne.symm h]
  | cons kv rest ih =>
    obtain ⟨k', v⟩ := kv
    by_cases h : k' = k
    · subst h
      rw [alSeed, if_pos rfl]
      by_cases hp : k' = p
      · simp [alGet, hp]
      · simp [alGet, hp, Ne.symm hp]
    · rw [alSeed, if_neg h]
      by_cases hp : k' = p
      · simp [alGet, hp]
      · simp [alGet, hp, ih]

theorem alGet_alPush {K R : Type} [DecidableEq K] :
    ∀ (m : List (K × List R)) (k p : K) (r : R),
      (alGet (alPush m k r) p).isSome = true ↔ (alGet m p).isSome = true ∨ p = k := by
  intro m k p r
  induction m with
  | nil =>
    by_cases h : k = p
    · simp [alPush, alGet, h]
    · simp [alPush, alGet, h, Ne.symm h]
  | cons kv rest ih =>
    obtain ⟨k', v⟩ := kv
    by_cases h : k' = k
    · subst h
      rw [alPush, if_pos rfl]
      by_cases hp : k' = p
      · simp [alGet, hp]
      · simp [alGet, hp, Ne.symm hp]
    · rw [alPush, if_neg h]
      by_cases hp : k' = p
      · simp [alGet, hp]
      · simp [alGet, hp, ih]

theorem marker_drop (line : List Nat) (h : newFileMarker.isPrefixOf line = true) :
    newFileMarker ++ line.drop newFileMarker.length = line := by
  obtain ⟨t, ht⟩ := List.isPrefixOf_iff_prefix.mp h
  rw [← ht, List.drop_left]

theorem parseDiffStep_keys
    (st : List (List Nat × List (Nat × Nat)) × Option (List Nat))
    (line : List Nat) (p : List Nat)
    (hinv : ∀ f, st.2 = some f → (alGet st.1 f).isSome = true) :
    (∀ f, (parseDiffStep st line).2 = some f
        → (alGet (parseDiffStep st line).1 f).isSome = true)
    ∧ ((alGet (parseDiffStep st line).1 p).isSome = true
        ↔ (alGet st.1 p).isSome = true ∨ line = newFileMarker ++ p) := by
  by_cases hnf : newFileMarker.isPrefixOf line = true
  · have hline := marker_drop line hnf
    constructor
    · intro f hf
      simp only [parseDiffStep, hnf, if_true] at hf ⊢
      rw [Option.some.injEq] at hf
      subst hf
      exact (alGet_alSeed st.1 _ _).mpr (Or.inr rfl)
    · simp only [parseDiffStep, hnf, if_true]
      rw [alGet_alSeed]
      constructor
      · rintro (h | h)
        · exact Or.inl h
        · right
          rw [h]
          exact hline.symm
      · rintro (h | h)
        · exact Or.inl h
        · right
          rw [h, List.drop_left]
  · have hne : ∀ p' : List Nat, ¬ line = newFileMarker ++ p' := by
      intro p' h
      exact hnf (by rw [h]; exact List.isPrefixOf_iff_prefix.mpr ⟨p', rfl⟩)
    by_cases hhm : hunkMarker.isPrefixOf line = true
    · cases hcf : st.2 with
      | none =>
        have hstep : parseDiffStep st line = st := by
          simp [parseDiffStep, hnf, hhm, hcf]
        rw [hstep]
        exact ⟨hinv, by simp [hne p]⟩
      | some f0 =>
        cases hph : parse_hunk_header line with
        | none =>
          have hstep : parseDiffStep st line = st := by
            simp [parseDiffStep, hnf, hhm, hcf, hph]
          rw [hstep]
          exact ⟨hinv, by simp [hne p]⟩
        | some range =>
          have hstep : parseDiffStep st line = (alPush st.1 f0 range, st.2) := by
            simp [parseDiffStep, hnf, hhm, hcf, hph]
          rw [hstep]
          constructor
          · intro f hf
            simp only at hf
            rw [hcf, Option.some.injEq] at hf
            subst hf
            exact (alGet_alPush st.1 f0 f0 range).mpr (Or.inr rfl)
          · rw [alGet_alPush]
            constructor
            · rintro (h | h)
              · exact Or.inl h
              · exact Or.inl (h ▸ hinv f0 hcf)
            · rintro (h | h)
              · exact Or.inl h
              · exact absurd h (hne p)
    · have hstep : parseDiffStep st line = st := by
        simp [parseDiffStep, hnf, hhm]
      rw [hstep]
      exact ⟨hinv, by simp [hne p]⟩

theorem parseDiff_fold_keys :
    ∀ (lines : List (List Nat))
      (st : List (List Nat × List (Nat × Nat)) × Option (List Nat)) (p : List Nat),
      (∀ f, st.2 = some f → (alGet st.1 f).isSome = true) →
      ((alGet (lines.foldl parseDiffStep st).1 p).isSome = true
        ↔ (alGet st.1 p).isSome = true ∨ ∃ l ∈ lines, l = newFileMarker ++ p) := by
  intro lines
  induction lines with
  | nil => intro st p hinv; simp
  | cons l rest ih =>
    intro st p hinv
    rw [List.foldl_cons]
    obtain ⟨hinv', hiff⟩ := parseDiffStep_keys st l p hinv
    rw [ih _ p hinv', hiff]
    constructor
    · rintro ((h | h) | h)
      · exact Or.inl h
      · exact Or.inr ⟨l, List.mem_cons_self l rest, h⟩
      · obtain ⟨x, hx, hxm⟩ := h
        exact Or.inr ⟨x, List.mem_cons_of_mem l hx, hxm⟩
    · rintro (h | ⟨x, hx, hxm⟩)
      · exact Or.inl (Or.inl h)
      · rcases List.mem_cons.mp hx with rfl | hx'
        · exact Or.inl (Or.inr hxm)
        · exact Or.inr ⟨x, hx', hxm⟩

/-- Claim C7: `has_line` is true exactly when some recorded inclusive range
for exactly that path contains the line; `has_file` is true exactly when the
path appears in the diff at all — that is, exactly when some `+++ b/` line
registered it, even with zero ranges; for a path absent from the map both
lookups are false (and never error, being total functions). -/
theorem diff_lookup_contract :
    (∀ (info : DiffInfo) (p : List Nat) (l : Nat),
        info.has_line p l = true
          ↔ ∃ rs, alGet info.changed_lines p = some rs
              ∧ ∃ r ∈ rs, r.1 ≤ l ∧ l ≤ r.2)
    ∧ (∀ (t : List Nat) (p : List Nat),
        (parse_diff t).has_file p = true ↔ ∃ l ∈ rustLines t, l = newFileMarker ++ p)
    ∧ (∀ (info : DiffInfo) (p : List Nat),
        alGet info.changed_lines p = none →
          info.has_file p = false ∧ ∀ l, info.has_line p l = false) := by
  refine ⟨?_, ?_, ?_⟩
  · intro info p l
    rw [DiffInfo.has_line]
    cases h : alGet info.changed_lines p with
    | none => simp
    | some rs => simp [List.any_eq_true]
  · intro t p
    have := parseDiff_fold_keys (rustLines t) ([], none) p (fun f hf => nomatch hf)
    simpa [DiffInfo.has_file, parse_diff, alGet] using this
  · intro info p h
    exact ⟨by simp [DiffInfo.has_file, h], fun l => by simp [DiffInfo.has_line, h]⟩

/-- Witness for claim C7's theorem: lookups on a path absent from an empty
diff are both false. -/
theorem diff_lookup_contract_witness :
    (parse_diff []).has_file (strBytes "x") = false
    ∧ ∀ l, (parse_diff []).has_line (strBytes "x") l = false :=
  diff_lookup_contract.2.2 (parse_diff []) (strBytes "x") rfl

example : countOcc (strBytes "aa") (strBytes "aaa") = 1 := by decide
example : literalMatches (strBytes "TODO") (strBytes "// TODO fix this TODO and that TODO") = [3, 17, 31] := by decide
example : parse_hunk_header (strBytes "@@ -10,3 +15,4 @@") = some (15, 18) := by decide
example : parse_hunk_header (strBytes "@@ -10,0 +15 @@") = some (15, 15) := by decide
example : parse_hunk_header (strBytes "@@ -10,3 +14,0 @@") = none := by decide
example : parse_hunk_header (strBytes "@@ -1,5 +1,7 @@ fn main()") = some (1, 7) := by decide
